import Mathlib

/-!
Verification development for the ToyShell repository (src/ToyShell.cpp,
src/ToyShell.h): a FreeRTOS/Arduino UART shell whose core is a
read/tokenize/dispatch loop plus a begin/end lifecycle protocol over two
atomic flags.

Byte strings are modelled as `List Nat` (one entry per byte); the fixed
line buffer `char input[SHELL_LINE_MAX]` is modelled by the list of bytes
from `input` up to the write cursor `bufhead`; machine pointers become
offsets.  Handlers are opaque: a `Command`'s entry point is modelled by an
identifier, and all transport output is modelled by a trace of `Out`
events.  The lifecycle (tasks plus the two `atomic_bool` flags) is
modelled as a small interleaved transition system.
-/

namespace ToyShell

/-- `#define SHELL_LINE_MAX 2048` (src/ToyShell.h line 47). -/
def SHELL_LINE_MAX : Nat := 2048

/-- `#define SHELL_ARG_MAX 32` (src/ToyShell.h line 48). -/
def SHELL_ARG_MAX : Nat := 32

/-- C `strcmp` on NUL-free byte strings, returning only the sign of the
result (which is all `bsearch` consumes).  A shorter string that is a
prefix of a longer one compares less, matching `strcmp` comparing the
terminating NUL byte against a non-NUL byte. -/
def strcmp : List Nat → List Nat → Ordering
  | [], [] => Ordering.eq
  | [], _ :: _ => Ordering.lt
  | _ :: _, [] => Ordering.gt
  | a :: as, b :: bs =>
    if a < b then Ordering.lt
    else if b < a then Ordering.gt
    else strcmp as bs

/-- `struct Command` (src/ToyShell.h lines 59-88): a name and an entry
point.  The entry point function pointer is modelled by an opaque
identifier `entry : Nat`; invoking it is recorded as an `Out.invoke`
event. -/
structure Command where
  name : List Nat
  entry : Nat
deriving DecidableEq

/-- The comparator `cmp` passed to `bsearch` (src/ToyShell.cpp lines
63-67): `strcmp(key, entry->name)`. -/
def cmp (key : List Nat) (e : Command) : Ordering := strcmp key e.name

/-- C library `bsearch` over `commands[lo..hi)` (called at
src/ToyShell.cpp lines 123-124), with the standard halving strategy
`mid = lo + (hi - lo) / 2`.  Returns the found entry (if any) together
with the number of comparator invocations.  The `fuel` argument only
drives the recursion; `fuel = hi - lo` always suffices because each
recursive call strictly shrinks the interval. -/
def bsearchF (key : List Nat) (t : List Command) : Nat → Nat → Nat → Option Command × Nat
  | _, _, 0 => (none, 0)
  | lo, hi, fuel + 1 =>
    if lo < hi then
      match t[lo + (hi - lo) / 2]? with
      | none => (none, 0)
      | some c =>
        match cmp key c with
        | Ordering.lt =>
          ((bsearchF key t lo (lo + (hi - lo) / 2) fuel).1,
           (bsearchF key t lo (lo + (hi - lo) / 2) fuel).2 + 1)
        | Ordering.gt =>
          ((bsearchF key t (lo + (hi - lo) / 2 + 1) hi fuel).1,
           (bsearchF key t (lo + (hi - lo) / 2 + 1) hi fuel).2 + 1)
        | Ordering.eq => (some c, 1)
    else (none, 0)

/-- `bsearch(argv[0], commands, cmd_count, sizeof(Command), cmp)`
(src/ToyShell.cpp lines 123-124): search the whole table. -/
def bsearch (key : List Nat) (t : List Command) : Option Command × Nat :=
  bsearchF key t 0 t.length t.length

/-- C `memchr(p, c, n)` on a byte list: offset of the first occurrence of
byte `c`, if any (src/ToyShell.cpp lines 84 and 115). -/
def memchr (c : Nat) : List Nat → Option Nat
  | [] => none
  | a :: s => if a = c then some 0 else (memchr c s).map (· + 1)

/-- The argument-splitting loop of `Shell::main` (src/ToyShell.cpp lines
104-119) on the completed line `s` (the bytes strictly before the
newline, which line 100 has overwritten with a NUL), entered with the
token counter `argc`.  Returns the accepted tokens (the values of
`argv[0..argc)` once splitting has finished: each stored pointer reads up
to the NUL that later overwrites its terminating space) and whether the
`"Too many arguments"` branch (lines 108-113) ran.  Faithful for lines
without embedded NUL bytes, where `strlen(i)` (line 104) measures exactly
to the next overwritten space or to the end of the line.  The `fuel`
argument only drives the recursion; `fuel = s.length` always suffices
because each step consumes the token and its terminating space. -/
def tokLoopF : Nat → Nat → List Nat → List (List Nat) × Bool
  | _, _, [] => ([], false)
  | 0, _, _ => ([], false)
  | fuel + 1, argc, s =>
    if argc < SHELL_ARG_MAX then
      match memchr 32 s with
      | none => ([s], false)
      | some k =>
        let r := tokLoopF fuel (argc + 1) (List.drop (k + 1) s)
        (List.take k s :: r.1, r.2)
    else ([], true)

/-- The tokenizer entered with counter `argc` (always 0 in the source,
line 101) on line `s`. -/
def tokLoop (argc : Nat) (s : List Nat) : List (List Nat) × Bool :=
  tokLoopF s.length argc s

/-- Observable transport output of one loop iteration.  Each constructor
stands for one `stream->print`/`printf` call of src/ToyShell.cpp:
`prompt` for `"shell> "` (lines 58-61), `echo l` for `printf("%s\n",
input)` (line 102), `tooLong` for `"\nshell: Command line too long;
discarding\n"` (line 90), `tooManyArgs i` for `printf("Too many
arguments; discarding arguments after #%d\n", i)` (lines 109-111),
`noSuchCommand n` for `printf("shell: No such command: %s\n", n)` (line
128), and `invoke e argc argv` for the handler call `cmd->entry(argc,
argv, stream)` (line 126). -/
inductive Out where
  | prompt
  | echo (line : List Nat)
  | tooLong
  | tooManyArgs (idx : Nat)
  | noSuchCommand (name : List Nat)
  | invoke (entry : Nat) (argc : Nat) (argv : List (List Nat))
deriving DecidableEq

/-- The command-execution block of `Shell::main` (src/ToyShell.cpp lines
123-129), reached only with a nonempty token vector: look up the first
token and either invoke the matching handler or print the
`"No such command"` diagnostic. -/
def dispatchModel (t : List Command) (argv : List (List Nat)) : List Out :=
  match argv with
  | [] => []
  | key :: _ =>
    match (bsearch key t).1 with
    | some c => [Out.invoke c.entry argv.length argv]
    | none => [Out.noSuchCommand key]

/-- One iteration of the `while (f_end == 0)` loop of `Shell::main`
(src/ToyShell.cpp lines 81-140).  `buf` is the buffer content before the
write cursor at the top of the iteration (`input[0..bufhead)`), `chunk`
the bytes this iteration's `readBytes` returns (placed at `bufhead`; the
transport returns at most `SHELL_LINE_MAX - buf.length` bytes).  Returns
the buffer content for the next iteration together with the outputs in
program order.

Branches, in source order:
* no newline in the new bytes (lines 85-97): accumulate; on reaching the
  buffer's end, print the overflow diagnostic and a prompt and reset the
  cursor to offset 0;
* newline found (lines 100-139): the line is everything before it; echo
  it, split it, and if `argc == 0` `continue` (line 122) — the cursor is
  left where it was (for an empty line it already sits at offset 0, so
  the bytes read after the newline are abandoned and overwritten by the
  next read); otherwise dispatch, move the bytes after the newline to
  the front of the buffer (lines 131-138) and print a prompt. -/
def iterate (t : List Command) (buf chunk : List Nat) : List Nat × List Out :=
  match memchr 10 chunk with
  | none =>
    let grown := buf ++ chunk
    if SHELL_LINE_MAX ≤ grown.length then ([], [Out.tooLong, Out.prompt])
    else (grown, [])
  | some e =>
    let line := buf ++ List.take e chunk
    let r := tokLoop 0 line
    let outs := Out.echo line :: (if r.2 then [Out.tooManyArgs (SHELL_ARG_MAX - 1)] else [])
    if r.1.length = 0 then (buf, outs)
    else (List.drop (e + 1) chunk, outs ++ dispatchModel t r.1 ++ [Out.prompt])

/-- Modelled from the spec's wording (§4.2, §8 Scenario 2): the
"whitespace-separated tokens" of a line, counting the empty tokens
produced by consecutive separators — splitting on every single space
byte.  This is the spec-side notion of token used to state the
tokenizer claims; the code-side tokenizer is `tokLoop`. -/
def specTokens : List Nat → List (List Nat)
  | [] => [[]]
  | c :: s =>
    if c = 32 then [] :: specTokens s
    else
      match specTokens s with
      | t :: ts => (c :: t) :: ts
      | [] => [[c]]

/-- Re-joining tokens with single space characters (the spec's round-trip
operation, §8). -/
def joinSp : List (List Nat) → List Nat
  | [] => []
  | [t] => t
  | t :: ts => t ++ 32 :: joinSp ts

/-- The tokens the source's splitting loop accepts when given unbounded
slots: all `specTokens` of the line except that a final empty token is
never produced (when the last byte of the line is the space terminating
the previous token, the loop index lands exactly on the line's end and
the loop exits), and the empty line yields no token at all. -/
def effTokens (s : List Nat) : List (List Nat) :=
  if (specTokens s).getLast? = some [] then (specTokens s).dropLast else specTokens s

/-- Number of tokens the splitting loop would accept given unbounded
slots. -/
def effCount (s : List Nat) : Nat := (effTokens s).length

/-- One entry of the sentinel-terminated table accepted by the
single-argument constructor (src/ToyShell.h lines 124-130): `name = none`
models a null `name` pointer. -/
structure CEntry where
  name : Option (List Nat)
  entry : Nat
deriving DecidableEq

/-- The counting loop of the single-argument constructor
(src/ToyShell.h lines 126-129): `cmd_count = 0; while
(commands[cmd_count].name) cmd_count += 1;` — the length of the prefix
before the first null-named entry.  (In C the loop relies on such an
entry existing; on the list model the function is total.) -/
def countCommands : List CEntry → Nat
  | [] => 0
  | e :: es =>
    match e.name with
    | none => 0
    | some _ => countCommands es + 1

/-! ## Lifecycle model

The lifecycle state shared between the caller and the loop task consists
of the two `atomic_bool`s `f_begin` and `f_end` (src/ToyShell.h lines
98-99).  `begin` (src/ToyShell.cpp lines 45-50) spawns the loop task
without touching either flag; the task itself sets `f_begin` on entry to
`main` (line 70) and clears both flags on exit (lines 143-144) just
before deleting itself (line 145).  `end` (lines 52-56) sets `f_end` and
busy-waits (with `taskYIELD`) until `f_begin` reads 0. -/

/-- Program counter of the loop task.  `idle`: no task exists.
`spawned`: `xTaskCreate` (line 48) has run but the task has not yet
executed line 70.  `looping`: the task is at the `while (f_end == 0)`
check (line 81).  `exited`: the task has passed its final store to
`f_begin` (line 144); its only remaining action, `vTaskDelete` (line
145), touches no shared state. -/
inductive LoopPc where
  | idle
  | spawned
  | looping
  | exited
deriving DecidableEq

/-- Program counter of the thread calling `end()`: about to store
`f_end = 1` (line 53), busy-waiting on `f_begin` (lines 54-55), or
returned. -/
inductive CallerPc where
  | setFlag
  | waiting
  | returned
deriving DecidableEq

/-- Lifecycle system state: the two atomic flags, the two program
counters, and a ghost counter of completed loop-body iterations. -/
structure LSys where
  fBegin : Bool
  fEnd : Bool
  loop : LoopPc
  caller : CallerPc
  iters : Nat
deriving DecidableEq

/-- One step of the loop task.  From `spawned` it executes line 70
(`atomic_store(&f_begin, 1)`) and reaches the loop condition; at
`looping` it either observes `f_end` set and performs the cleanup of
lines 143-145 (both flags cleared, task gone), or runs one full loop
body (lines 83-139: a `readBytes` bounded by the 20 ms timeout, then
processing; the claim-level assumption that the transport read respects
its timeout and no handler blocks forever is what makes the body one
terminating step). -/
def loopStep (s : LSys) : LSys :=
  match s.loop with
  | LoopPc.idle => s
  | LoopPc.spawned => { s with fBegin := true, loop := LoopPc.looping }
  | LoopPc.looping =>
    if s.fEnd then { s with fEnd := false, fBegin := false, loop := LoopPc.exited }
    else { s with iters := s.iters + 1 }
  | LoopPc.exited => s

/-- One step of the `end()` caller: the store `atomic_store(&f_end, 1)`
(line 53), then one check of the busy-wait condition `f_begin != 0`
(line 54) per step (each failed check is followed by `taskYIELD`). -/
def callerStep (s : LSys) : LSys :=
  match s.caller with
  | CallerPc.setFlag => { s with fEnd := true, caller := CallerPc.waiting }
  | CallerPc.waiting => if s.fBegin then s else { s with caller := CallerPc.returned }
  | CallerPc.returned => s

/-- An interleaving step: the scheduler either runs the loop task
(`turn = true`) or the caller (`turn = false`). -/
def sysStep (turn : Bool) (s : LSys) : LSys :=
  if turn then loopStep s else callerStep s

/-- Execution of the two tasks under a schedule. -/
def run (sched : Nat → Bool) (s0 : LSys) : Nat → LSys
  | 0 => s0
  | n + 1 => sysStep (sched n) (run sched s0 n)

/-- `Shell::begin` (src/ToyShell.cpp lines 45-50) acting on the
lifecycle system: if `f_begin` reads 0 it spawns the loop task (the
stream assignment is tracked in `BeginSt` below); otherwise nothing. -/
def beginL (s : LSys) : LSys :=
  if s.fBegin then s else { s with loop := LoopPc.spawned }

/-- State observed by `Shell::begin` (src/ToyShell.cpp lines 45-50):
the `f_begin` flag, the recorded transport reference `this->stream`
(transports named by numbers), and the number of loop tasks created so
far by `xTaskCreate`. -/
structure BeginSt where
  fBegin : Bool
  stream : Option Nat
  tasks : Nat
deriving DecidableEq

/-- `Shell::begin(stream)` (src/ToyShell.cpp lines 45-50): if `f_begin`
reads 0, record the transport and spawn a (further) loop task; note that
`f_begin` is set only by the spawned task itself once it starts running
`main` (line 70), not by `begin`. -/
def beginOp (s : BeginSt) (st : Nat) : BeginSt :=
  if s.fBegin then s else { s with stream := some st, tasks := s.tasks + 1 }

/-- Invariant of the stop protocol, entered when `end()` is called with
the loop task running: the system passes through four phases — stop not
yet requested; stop requested and loop still running; loop exited and
flags cleared with the caller still polling; caller returned. -/
def C8Inv (s : LSys) : Prop :=
  (s.caller = CallerPc.setFlag ∧ s.loop = LoopPc.looping ∧ s.fBegin = true ∧ s.fEnd = false) ∨
  (s.caller = CallerPc.waiting ∧ s.loop = LoopPc.looping ∧ s.fBegin = true ∧ s.fEnd = true) ∨
  (s.caller = CallerPc.waiting ∧ s.loop = LoopPc.exited ∧ s.fBegin = false ∧ s.fEnd = false) ∨
  (s.caller = CallerPc.returned ∧ s.loop = LoopPc.exited ∧ s.fBegin = false ∧ s.fEnd = false)

/-- Phase number of a state satisfying `C8Inv`; it only increases along
any interleaving. -/
def c8phase (s : LSys) : Nat :=
  match s.caller with
  | CallerPc.setFlag => 1
  | CallerPc.waiting => if s.loop = LoopPc.exited then 3 else 2
  | CallerPc.returned => 4



/-! ## Lemmas about `strcmp` -/

theorem strcmp_self (a : List Nat) : strcmp a a = Ordering.eq := by
  induction a with
  | nil => rfl
  | cons x xs ih => simp [strcmp, ih]

theorem strcmp_eq_iff : ∀ a b : List Nat, strcmp a b = Ordering.eq ↔ a = b
  | [], [] => by simp [strcmp]
  | [], b :: bs => by simp [strcmp]
  | a :: as, [] => by simp [strcmp]
  | a :: as, b :: bs => by
    simp only [strcmp]
    rcases Nat.lt_trichotomy a b with h | h | h
    · simp [h, Nat.ne_of_lt h]
    · subst h
      simp [Nat.lt_irrefl, strcmp_eq_iff as bs]
    · simp [h, Nat.not_lt_of_lt h, (Nat.ne_of_lt h).symm]

theorem strcmp_lt_iff_gt : ∀ a b : List Nat, strcmp a b = Ordering.lt ↔ strcmp b a = Ordering.gt
  | [], [] => by simp [strcmp]
  | [], b :: bs => by simp [strcmp]
  | a :: as, [] => by simp [strcmp]
  | a :: as, b :: bs => by
    simp only [strcmp]
    rcases Nat.lt_trichotomy a b with h | h | h
    · simp [h, Nat.not_lt_of_lt h]
    · subst h
      simp [Nat.lt_irrefl, strcmp_lt_iff_gt as bs]
    · simp [h, Nat.not_lt_of_lt h]

/-! ## Lemmas about `memchr` -/

theorem memchr_ne_nil {c : Nat} {s : List Nat} {k : Nat} (h : memchr c s = some k) :
    s ≠ [] := by
  intro he
  subst he
  simp [memchr] at h

theorem memchr_none_not_mem {c : Nat} : ∀ {s : List Nat}, memchr c s = none → c ∉ s := by
  intro s
  induction s with
  | nil => simp
  | cons a s ih =>
    simp only [memchr]
    by_cases ha : a = c
    · simp [ha]
    · intro h hm
      rcases List.mem_cons.mp hm with h1 | h1
      · exact ha h1.symm
      · have h2 : memchr c s = none := by
          simpa [ha, Option.map_eq_none'] using h
        exact ih h2 h1

theorem memchr_concat_self {c : Nat} : ∀ {l : List Nat}, c ∉ l → memchr c (l ++ [c]) = some l.length := by
  intro l
  induction l with
  | nil => simp [memchr]
  | cons a l ih =>
    intro h
    have ha : ¬ a = c := fun he => h (by simp [he])
    have hl : c ∉ l := fun hm => h (List.mem_cons_of_mem a hm)
    show memchr c (a :: (l ++ [c])) = some (a :: l).length
    simp only [memchr, ha, if_false]
    rw [ih hl]
    simp

/-! ## Lemmas about `specTokens`, `joinSp` and the splitting loop -/

theorem specTokens_ne_nil : ∀ s : List Nat, specTokens s ≠ []
  | [] => by simp [specTokens]
  | c :: s => by
    simp only [specTokens]
    by_cases hc : c = 32
    · simp [hc]
    · cases h : specTokens s with
      | nil => simp [hc]
      | cons t ts => simp [hc]

theorem specTokens_no_space : ∀ {s : List Nat}, memchr 32 s = none → specTokens s = [s] := by
  intro s
  induction s with
  | nil => intro h; rfl
  | cons a s ih =>
    intro h
    have ha : ¬ a = 32 := by
      intro he
      simp [memchr, he] at h
    have hs : memchr 32 s = none := by
      simpa [memchr, ha, Option.map_eq_none'] using h
    simp [specTokens, ha, ih hs]

theorem specTokens_split : ∀ {s : List Nat} {k : Nat}, memchr 32 s = some k →
    specTokens s = List.take k s :: specTokens (List.drop (k + 1) s) := by
  intro s
  induction s with
  | nil => intro k h; simp [memchr] at h
  | cons a s ih =>
    intro k h
    by_cases ha : a = 32
    · have hk : k = 0 := by
        simp [memchr, ha] at h
        omega
      subst hk
      simp [specTokens, ha]
    · have h2 : ∃ k2, memchr 32 s = some k2 ∧ k = k2 + 1 := by
        rcases h3 : memchr 32 s with _ | k2
        · simp [memchr, ha, h3] at h
        · refine ⟨k2, rfl, ?_⟩
          simp [memchr, ha, h3] at h
          omega
      rcases h2 with ⟨k2, hk2, rfl⟩
      have := ih hk2
      simp [specTokens, ha, this]

theorem joinSp_specTokens : ∀ s : List Nat, joinSp (specTokens s) = s
  | [] => rfl
  | a :: s => by
    by_cases ha : a = 32
    · subst ha
      rcases h : specTokens s with _ | ⟨t, ts⟩
      · exact absurd h (specTokens_ne_nil s)
      · have ih := joinSp_specTokens s
        rw [h] at ih
        rw [show specTokens (32 :: s) = [] :: specTokens s from by simp [specTokens]]
        rw [h]
        show [] ++ 32 :: joinSp (t :: ts) = 32 :: s
        rw [ih]
        rfl
    · rcases h : specTokens s with _ | ⟨t, ts⟩
      · exact absurd h (specTokens_ne_nil s)
      · have ih := joinSp_specTokens s
        rw [h] at ih
        cases ts with
        | nil =>
          simp only [joinSp] at ih
          rw [show specTokens (a :: s) = [a :: t] from by simp [specTokens, ha, h]]
          show a :: t = a :: s
          rw [ih]
        | cons u ts2 =>
          simp only [joinSp] at ih
          rw [show specTokens (a :: s) = (a :: t) :: u :: ts2 from by
            simp [specTokens, ha, h]]
          show (a :: t) ++ 32 :: joinSp (u :: ts2) = a :: s
          rw [List.cons_append, ih]

theorem effTokens_cons {s : List Nat} {tk : List Nat} {rest : List Nat}
    (hsp : specTokens s = tk :: specTokens rest) :
    effTokens s = tk :: effTokens rest := by
  rcases h : specTokens rest with _ | ⟨u, ts⟩
  · exact absurd h (specTokens_ne_nil rest)
  · rw [effTokens, effTokens, hsp, h, List.getLast?_cons_cons]
    by_cases hl : (u :: ts).getLast? = some []
    · simp [hl]
    · simp [hl]

theorem effCount_cons {s : List Nat} {tk : List Nat} {rest : List Nat}
    (hsp : specTokens s = tk :: specTokens rest) :
    effCount s = effCount rest + 1 := by
  simp [effCount, effTokens_cons hsp]

theorem effTokens_nil : effTokens [] = [] := by decide

theorem effTokens_no_space {s : List Nat} (hne : s ≠ []) (h : memchr 32 s = none) :
    effTokens s = [s] := by
  rw [effTokens, specTokens_no_space h]
  simp [hne]

theorem effCount_pos {s : List Nat} (hne : s ≠ []) : 1 ≤ effCount s := by
  rcases h : memchr 32 s with _ | k
  · simp [effCount, effTokens_no_space hne h]
  · simp [effCount, effTokens_cons (specTokens_split h)]

theorem effCount_le_specTokens_length (s : List Nat) :
    effCount s ≤ (specTokens s).length := by
  rw [effCount, effTokens]
  by_cases h : (specTokens s).getLast? = some []
  · rw [if_pos h, List.length_dropLast]
    omega
  · rw [if_neg h]

/-- Master description of the splitting loop (src/ToyShell.cpp lines
104-119): entered with counter `argc` on line `s`, it accepts all the
effective tokens when they fit in the remaining `SHELL_ARG_MAX - argc`
slots, and otherwise fills exactly the remaining slots with the first
spec tokens and reports truncation. -/
theorem tokLoopF_eq : ∀ (fuel argc : Nat) (s : List Nat), s.length ≤ fuel →
    argc ≤ SHELL_ARG_MAX →
    tokLoopF fuel argc s =
      if argc + effCount s ≤ SHELL_ARG_MAX then (effTokens s, false)
      else ((specTokens s).take (SHELL_ARG_MAX - argc), true) := by
  intro fuel
  induction fuel with
  | zero =>
    intro argc s hs hargc
    have : s = [] := List.length_eq_zero.mp (Nat.le_zero.mp hs)
    subst this
    simp [tokLoopF, effTokens_nil, effCount, hargc]
  | succ fuel ih =>
    intro argc s hs hargc
    cases s with
    | nil => simp [tokLoopF, effTokens_nil, effCount, hargc]
    | cons a s0 =>
      by_cases hac : argc < SHELL_ARG_MAX
      · rcases hm : memchr 32 (a :: s0) with _ | k
        · rw [show tokLoopF (fuel + 1) argc (a :: s0) =
              ([a :: s0], false) from by simp [tokLoopF, hac, hm]]
          have hc : effCount (a :: s0) = 1 := by
            simp [effCount, effTokens_no_space (List.cons_ne_nil a s0) hm]
          rw [if_pos (by omega)]
          rw [effTokens_no_space (List.cons_ne_nil a s0) hm]
        · have hsp := specTokens_split hm
          have hrest : (List.drop (k + 1) (a :: s0)).length ≤ fuel := by
            rw [List.length_drop]
            simp only [List.length_cons] at hs ⊢
            omega
          have hrec := ih (argc + 1) (List.drop (k + 1) (a :: s0)) hrest (by omega)
          rw [show tokLoopF (fuel + 1) argc (a :: s0) =
              (List.take k (a :: s0) ::
                 (tokLoopF fuel (argc + 1) (List.drop (k + 1) (a :: s0))).1,
               (tokLoopF fuel (argc + 1) (List.drop (k + 1) (a :: s0))).2) from by
            simp [tokLoopF, hac, hm]]
          rw [hrec]
          have hcnt := effCount_cons hsp
          by_cases hfit : argc + effCount (a :: s0) ≤ SHELL_ARG_MAX
          · rw [if_pos (by omega), if_pos hfit]
            simp [effTokens_cons hsp]
          · rw [if_neg (by omega), if_neg hfit]
            have h1 : SHELL_ARG_MAX - argc = (SHELL_ARG_MAX - (argc + 1)) + 1 := by omega
            rw [hsp, h1, List.take_succ_cons]
      · have hargc32 : argc = SHELL_ARG_MAX := by omega
        have hpos := effCount_pos (List.cons_ne_nil a s0)
        rw [show tokLoopF (fuel + 1) argc (a :: s0) = ([], true) from by
          simp [tokLoopF, hac]]
        rw [if_neg (by omega), hargc32]
        simp


theorem joinSp_concat : ∀ (ts : List (List Nat)) (x t : List Nat),
    joinSp ((x :: ts) ++ [t]) = joinSp (x :: ts) ++ 32 :: t
  | [], x, t => rfl
  | y :: ts, x, t => by
    show joinSp (x :: ((y :: ts) ++ [t])) = joinSp (x :: y :: ts) ++ 32 :: t
    rw [show joinSp (x :: ((y :: ts) ++ [t])) = x ++ 32 :: joinSp ((y :: ts) ++ [t]) from rfl]
    rw [joinSp_concat ts y t]
    show x ++ 32 :: (joinSp (y :: ts) ++ 32 :: t) = (x ++ 32 :: joinSp (y :: ts)) ++ 32 :: t
    simp

theorem specTokens_getLast_empty {s : List Nat}
    (h : (specTokens s).getLast? = some []) : s = [] ∨ s.getLast? = some 32 := by
  have hne := specTokens_ne_nil s
  have hlast : (specTokens s).getLast hne = [] := by
    have := List.getLast?_eq_getLast (specTokens s) hne
    rw [h] at this
    exact (Option.some.inj this).symm
  have hdec := List.dropLast_append_getLast hne
  rw [hlast] at hdec
  rcases hd : (specTokens s).dropLast with _ | ⟨x, ts⟩
  · left
    have : specTokens s = [[]] := by rw [← hdec, hd]; rfl
    have hj := joinSp_specTokens s
    rw [this] at hj
    exact hj.symm
  · right
    have hj := joinSp_specTokens s
    rw [← hdec, hd, joinSp_concat] at hj
    rw [← hj]
    exact List.getLast?_concat _

theorem tokLoop_untruncated {s : List Nat} (h : effCount s ≤ SHELL_ARG_MAX) :
    tokLoop 0 s = (effTokens s, false) := by
  rw [tokLoop, tokLoopF_eq s.length 0 s (Nat.le_refl _) (by simp [SHELL_ARG_MAX])]
  rw [if_pos (by omega)]

theorem tokLoop_truncated {s : List Nat} (h : SHELL_ARG_MAX < effCount s) :
    tokLoop 0 s = ((specTokens s).take SHELL_ARG_MAX, true) := by
  rw [tokLoop, tokLoopF_eq s.length 0 s (Nat.le_refl _) (by simp [SHELL_ARG_MAX])]
  rw [if_neg (by omega)]
  simp

theorem joinSp_effTokens {s : List Nat} (h : s.getLast? ≠ some 32) :
    joinSp (effTokens s) = s := by
  by_cases hl : (specTokens s).getLast? = some []
  · rcases specTokens_getLast_empty hl with he | he
    · subst he
      rw [effTokens_nil]
      rfl
    · exact absurd he h
  · rw [effTokens, if_neg hl]
    exact joinSp_specTokens s


/-! ## Lemmas about `bsearch` -/

theorem bsearchF_step_none (key : List Nat) (t : List Command) (lo hi fuel : Nat)
    (h : lo < hi) (hm : t[lo + (hi - lo) / 2]? = none) :
    bsearchF key t lo hi (fuel + 1) = (none, 0) := by
  simp [bsearchF, h, hm]

theorem bsearchF_step_lt (key : List Nat) (t : List Command) (lo hi fuel : Nat)
    (c0 : Command) (h : lo < hi) (hm : t[lo + (hi - lo) / 2]? = some c0)
    (hc : cmp key c0 = Ordering.lt) :
    bsearchF key t lo hi (fuel + 1) =
      ((bsearchF key t lo (lo + (hi - lo) / 2) fuel).1,
       (bsearchF key t lo (lo + (hi - lo) / 2) fuel).2 + 1) := by
  simp [bsearchF, h, hm, hc]

theorem bsearchF_step_gt (key : List Nat) (t : List Command) (lo hi fuel : Nat)
    (c0 : Command) (h : lo < hi) (hm : t[lo + (hi - lo) / 2]? = some c0)
    (hc : cmp key c0 = Ordering.gt) :
    bsearchF key t lo hi (fuel + 1) =
      ((bsearchF key t (lo + (hi - lo) / 2 + 1) hi fuel).1,
       (bsearchF key t (lo + (hi - lo) / 2 + 1) hi fuel).2 + 1) := by
  simp [bsearchF, h, hm, hc]

theorem bsearchF_step_eq (key : List Nat) (t : List Command) (lo hi fuel : Nat)
    (c0 : Command) (h : lo < hi) (hm : t[lo + (hi - lo) / 2]? = some c0)
    (hc : cmp key c0 = Ordering.eq) :
    bsearchF key t lo hi (fuel + 1) = (some c0, 1) := by
  simp [bsearchF, h, hm, hc]

theorem sorted_name_unique {t : List Command}
    (hs : List.Pairwise (fun a b => strcmp a.name b.name = Ordering.lt) t)
    {a b : Command} (ha : a ∈ t) (hb : b ∈ t) (hn : a.name = b.name) : a = b := by
  rcases List.mem_iff_get.mp ha with ⟨i, rfl⟩
  rcases List.mem_iff_get.mp hb with ⟨j, rfl⟩
  rcases Nat.lt_trichotomy i.val j.val with h | h | h
  · have hlt := (List.pairwise_iff_get.mp hs) i j (Fin.lt_def.mpr h)
    rw [hn, strcmp_self] at hlt
    simp at hlt
  · rw [show i = j from Fin.ext h]
  · have hlt := (List.pairwise_iff_get.mp hs) j i (Fin.lt_def.mpr h)
    rw [← hn, strcmp_self] at hlt
    simp at hlt

theorem bsearchF_sound {key : List Nat} {t : List Command} :
    ∀ (fuel lo hi : Nat) {c : Command},
      (bsearchF key t lo hi fuel).1 = some c → c ∈ t ∧ c.name = key := by
  intro fuel
  induction fuel with
  | zero =>
    intro lo hi c h
    simp [bsearchF] at h
  | succ fuel ih =>
    intro lo hi c h
    by_cases hlh : lo < hi
    · rcases hm : t[lo + (hi - lo) / 2]? with _ | c0
      · rw [bsearchF_step_none key t lo hi fuel hlh hm] at h
        simp at h
      · have hc0mem : c0 ∈ t := by
          rcases List.getElem?_eq_some.mp hm with ⟨hlt, hget⟩
          rw [← hget]
          exact List.getElem_mem hlt
        rcases hc : cmp key c0 with _ | _ | _
        · rw [bsearchF_step_lt key t lo hi fuel c0 hlh hm hc] at h
          exact ih lo (lo + (hi - lo) / 2) h
        · rw [bsearchF_step_eq key t lo hi fuel c0 hlh hm hc] at h
          have hcc : c0 = c := by simpa using h
          subst hcc
          exact ⟨hc0mem, ((strcmp_eq_iff key c0.name).mp hc).symm⟩
        · rw [bsearchF_step_gt key t lo hi fuel c0 hlh hm hc] at h
          exact ih (lo + (hi - lo) / 2 + 1) hi h
    · simp [bsearchF, hlh] at h

theorem bsearchF_found {key : List Nat} {t : List Command}
    (hs : List.Pairwise (fun a b => strcmp a.name b.name = Ordering.lt) t) :
    ∀ (fuel lo hi : Nat) (j : Fin t.length),
      lo ≤ j.val → j.val < hi → hi ≤ t.length → hi - lo ≤ fuel →
      (t.get j).name = key →
      ∃ c, (bsearchF key t lo hi fuel).1 = some c := by
  intro fuel
  induction fuel with
  | zero =>
    intro lo hi j h1 h2 h3 h4 h5
    omega
  | succ fuel ih =>
    intro lo hi j h1 h2 h3 h4 h5
    have hlh : lo < hi := Nat.lt_of_le_of_lt h1 h2
    have hmidlt : lo + (hi - lo) / 2 < t.length := by omega
    have hm : t[lo + (hi - lo) / 2]? = some (t.get ⟨lo + (hi - lo) / 2, hmidlt⟩) :=
      List.getElem?_eq_getElem hmidlt
    rcases hc : cmp key (t.get ⟨lo + (hi - lo) / 2, hmidlt⟩) with _ | _ | _
    · -- key < mid entry: the match lands strictly left of mid
      have hjlt : j.val < lo + (hi - lo) / 2 := by
        by_contra hge
        rcases Nat.lt_or_ge (lo + (hi - lo) / 2) j.val with hlt2 | hge2
        · have hp := (List.pairwise_iff_get.mp hs) ⟨lo + (hi - lo) / 2, hmidlt⟩ j
            (Fin.lt_def.mpr hlt2)
          rw [h5] at hp
          have hgt := (strcmp_lt_iff_gt _ _).mp hp
          rw [cmp, hgt] at hc
          simp at hc
        · have hjeq : j = ⟨lo + (hi - lo) / 2, hmidlt⟩ := Fin.ext (by show j.val = lo + (hi - lo) / 2; omega)
          rw [cmp, ← hjeq, h5, strcmp_self] at hc
          simp at hc
      rcases ih lo (lo + (hi - lo) / 2) j h1 hjlt (by omega) (by omega) h5 with ⟨c, hcfind⟩
      refine ⟨c, ?_⟩
      rw [bsearchF_step_lt key t lo hi fuel _ hlh hm hc]
      exact hcfind
    · exact ⟨_, by rw [bsearchF_step_eq key t lo hi fuel _ hlh hm hc]⟩
    · -- key > mid entry: the match lands strictly right of mid
      have hjgt : lo + (hi - lo) / 2 < j.val := by
        by_contra hge
        rcases Nat.lt_or_ge j.val (lo + (hi - lo) / 2) with hlt2 | hge2
        · have hp := (List.pairwise_iff_get.mp hs) j ⟨lo + (hi - lo) / 2, hmidlt⟩
            (Fin.lt_def.mpr hlt2)
          rw [h5] at hp
          rw [cmp, hp] at hc
          simp at hc
        · have hjeq : j = ⟨lo + (hi - lo) / 2, hmidlt⟩ := Fin.ext (by show j.val = lo + (hi - lo) / 2; omega)
          rw [cmp, ← hjeq, h5, strcmp_self] at hc
          simp at hc
      rcases ih (lo + (hi - lo) / 2 + 1) hi j (by omega) h2 h3 (by omega) h5 with ⟨c, hcfind⟩
      refine ⟨c, ?_⟩
      rw [bsearchF_step_gt key t lo hi fuel _ hlh hm hc]
      exact hcfind

theorem bsearchF_count_zero (key : List Nat) (t : List Command) (fuel lo hi : Nat)
    (h : ¬ lo < hi) : (bsearchF key t lo hi fuel).2 = 0 := by
  cases fuel <;> simp [bsearchF, h]

theorem log2_half {n : Nat} (h : 2 ≤ n) : Nat.log2 n = Nat.log2 (n / 2) + 1 := by
  rw [Nat.log2]
  simp [h]

theorem log2_mono {m n : Nat} (h : m ≤ n) : Nat.log2 m ≤ Nat.log2 n := by
  rw [Nat.log2_eq_log_two, Nat.log2_eq_log_two]
  exact Nat.log_mono_right h

theorem bsearchF_count (key : List Nat) (t : List Command) :
    ∀ (fuel lo hi : Nat), (bsearchF key t lo hi fuel).2 ≤ Nat.log2 (hi - lo) + 1 := by
  intro fuel
  induction fuel with
  | zero =>
    intro lo hi
    simp [bsearchF]
  | succ fuel ih =>
    intro lo hi
    by_cases hlh : lo < hi
    · rcases hm : t[lo + (hi - lo) / 2]? with _ | c0
      · rw [bsearchF_step_none key t lo hi fuel hlh hm]
        simp
      · rcases hc : cmp key c0 with _ | _ | _
        · rw [bsearchF_step_lt key t lo hi fuel c0 hlh hm hc]
          by_cases hsub : lo < lo + (hi - lo) / 2
          · have h2 : 2 ≤ hi - lo := by omega
            have hih := ih lo (lo + (hi - lo) / 2)
            have heq : lo + (hi - lo) / 2 - lo = (hi - lo) / 2 := by omega
            rw [heq] at hih
            rw [log2_half h2]
            simp only []
            omega
          · rw [show (bsearchF key t lo (lo + (hi - lo) / 2) fuel).2 = 0 from
              bsearchF_count_zero key t fuel lo (lo + (hi - lo) / 2) hsub]
            simp
        · rw [bsearchF_step_eq key t lo hi fuel c0 hlh hm hc]
          simp
        · rw [bsearchF_step_gt key t lo hi fuel c0 hlh hm hc]
          by_cases hsub : lo + (hi - lo) / 2 + 1 < hi
          · have h2 : 2 ≤ hi - lo := by omega
            have hih := ih (lo + (hi - lo) / 2 + 1) hi
            have hle : hi - (lo + (hi - lo) / 2 + 1) ≤ (hi - lo) / 2 := by omega
            have hmono := log2_mono hle
            rw [log2_half h2]
            simp only []
            omega
          · rw [show (bsearchF key t (lo + (hi - lo) / 2 + 1) hi fuel).2 = 0 from
              bsearchF_count_zero key t fuel (lo + (hi - lo) / 2 + 1) hi hsub]
            simp
    · rw [bsearchF_count_zero key t (fuel + 1) lo hi hlh]
      simp

theorem bsearch_found {key : List Nat} {t : List Command}
    (hs : List.Pairwise (fun a b => strcmp a.name b.name = Ordering.lt) t)
    {c : Command} (hc : c ∈ t) (hn : c.name = key) :
    (bsearch key t).1 = some c := by
  rcases List.mem_iff_get.mp hc with ⟨j, rfl⟩
  rcases bsearchF_found hs t.length 0 t.length j (Nat.zero_le _) j.isLt
    (Nat.le_refl _) (by omega) hn with ⟨c2, h2⟩
  rcases bsearchF_sound t.length 0 t.length h2 with ⟨hmem, hname⟩
  rw [bsearch, h2]
  have hcc : c2 = t.get j := sorted_name_unique hs hmem hc (by rw [hname, hn])
  rw [hcc]

theorem bsearch_none {key : List Nat} {t : List Command}
    (h : ∀ c ∈ t, c.name ≠ key) : (bsearch key t).1 = none := by
  rcases hr : (bsearch key t).1 with _ | c
  · rfl
  · rcases bsearchF_sound t.length 0 t.length hr with ⟨hmem, hname⟩
    exact absurd hname (h c hmem)

theorem bsearch_count (key : List Nat) (t : List Command) :
    (bsearch key t).2 ≤ Nat.log2 t.length + 1 := by
  have h := bsearchF_count key t t.length 0 t.length
  simpa using h


/-! ## Lemmas about the lifecycle model -/

theorem c8inv_step (b : Bool) {s : LSys} (h : C8Inv s) : C8Inv (sysStep b s) := by
  rcases h with ⟨h1, h2, h3, h4⟩ | ⟨h1, h2, h3, h4⟩ | ⟨h1, h2, h3, h4⟩ | ⟨h1, h2, h3, h4⟩ <;>
    cases b <;>
      simp [sysStep, loopStep, callerStep, C8Inv, h1, h2, h3, h4]

theorem c8inv_run (sched : Nat → Bool) (s0 : LSys) (h : C8Inv s0) :
    ∀ n, C8Inv (run sched s0 n)
  | 0 => h
  | n + 1 => c8inv_step (sched n) (c8inv_run sched s0 h n)

theorem c8phase_step (b : Bool) {s : LSys} (h : C8Inv s) :
    c8phase s ≤ c8phase (sysStep b s) := by
  rcases h with ⟨h1, h2, h3, h4⟩ | ⟨h1, h2, h3, h4⟩ | ⟨h1, h2, h3, h4⟩ | ⟨h1, h2, h3, h4⟩ <;>
    cases b <;>
      simp [sysStep, loopStep, callerStep, c8phase, h1, h2, h3, h4]

theorem c8phase_mono (sched : Nat → Bool) (s0 : LSys) (h : C8Inv s0) :
    ∀ {m n : Nat}, m ≤ n → c8phase (run sched s0 m) ≤ c8phase (run sched s0 n) := by
  intro m n hmn
  induction n with
  | zero =>
    have hm : m = 0 := Nat.le_zero.mp hmn
    subst hm
    exact Nat.le_refl _
  | succ n ihn =>
    rcases Nat.lt_or_ge m (n + 1) with hlt | hge
    · have hmn2 : m ≤ n := by omega
      exact Nat.le_trans (ihn hmn2) (c8phase_step (sched n) (c8inv_run sched s0 h n))
    · have hm : m = n + 1 := by omega
      subst hm
      exact Nat.le_refl _

theorem c8phase_cases {s : LSys} (h : C8Inv s) :
    c8phase s = 1 ∨ c8phase s = 2 ∨ c8phase s = 3 ∨ c8phase s = 4 := by
  rcases h with ⟨h1, h2, h3, h4⟩ | ⟨h1, h2, h3, h4⟩ | ⟨h1, h2, h3, h4⟩ | ⟨h1, h2, h3, h4⟩ <;>
    simp [c8phase, h1, h2]

theorem c8_caller_at1 {s : LSys} (h : C8Inv s) (hp : c8phase s = 1) :
    c8phase (sysStep false s) = 2 := by
  rcases h with ⟨h1, h2, h3, h4⟩ | ⟨h1, h2, h3, h4⟩ | ⟨h1, h2, h3, h4⟩ | ⟨h1, h2, h3, h4⟩ <;>
    simp [c8phase, h1, h2] at hp ⊢ <;>
      simp [sysStep, callerStep, c8phase, h1, h2, h3, h4]

theorem c8_loop_at2 {s : LSys} (h : C8Inv s) (hp : c8phase s = 2) :
    c8phase (sysStep true s) = 3 := by
  rcases h with ⟨h1, h2, h3, h4⟩ | ⟨h1, h2, h3, h4⟩ | ⟨h1, h2, h3, h4⟩ | ⟨h1, h2, h3, h4⟩ <;>
    simp [c8phase, h1, h2] at hp ⊢ <;>
      simp [sysStep, loopStep, c8phase, h1, h2, h3, h4]

theorem c8_caller_at3 {s : LSys} (h : C8Inv s) (hp : c8phase s = 3) :
    c8phase (sysStep false s) = 4 := by
  rcases h with ⟨h1, h2, h3, h4⟩ | ⟨h1, h2, h3, h4⟩ | ⟨h1, h2, h3, h4⟩ | ⟨h1, h2, h3, h4⟩ <;>
    simp [c8phase, h1, h2] at hp ⊢ <;>
      simp [sysStep, callerStep, c8phase, h1, h2, h3, h4]

theorem c8phase_eq4 {s : LSys} (h : C8Inv s) (hp : c8phase s = 4) :
    s.caller = CallerPc.returned := by
  rcases h with ⟨h1, h2, h3, h4⟩ | ⟨h1, h2, h3, h4⟩ | ⟨h1, h2, h3, h4⟩ | ⟨h1, h2, h3, h4⟩ <;>
    simp [c8phase, h1, h2] at hp ⊢


/-! ## Lemmas about `iterate` and `countCommands` -/

theorem iterate_no_newline (t : List Command) (buf chunk : List Nat)
    (h : memchr 10 chunk = none) :
    iterate t buf chunk =
      if SHELL_LINE_MAX ≤ (buf ++ chunk).length then ([], [Out.tooLong, Out.prompt])
      else (buf ++ chunk, []) := by
  simp [iterate, h]

theorem iterate_newline (t : List Command) (buf chunk : List Nat) (e : Nat)
    (h : memchr 10 chunk = some e) :
    iterate t buf chunk =
      if (tokLoop 0 (buf ++ List.take e chunk)).1.length = 0 then
        (buf, Out.echo (buf ++ List.take e chunk) ::
          (if (tokLoop 0 (buf ++ List.take e chunk)).2 then
             [Out.tooManyArgs (SHELL_ARG_MAX - 1)] else []))
      else
        (List.drop (e + 1) chunk,
         (Out.echo (buf ++ List.take e chunk) ::
            (if (tokLoop 0 (buf ++ List.take e chunk)).2 then
               [Out.tooManyArgs (SHELL_ARG_MAX - 1)] else [])) ++
           dispatchModel t (tokLoop 0 (buf ++ List.take e chunk)).1 ++ [Out.prompt]) := by
  simp [iterate, h]

theorem tokLoop_result_ne_nil {s : List Nat} (hne : s ≠ []) : (tokLoop 0 s).1 ≠ [] := by
  rcases Nat.lt_or_ge SHELL_ARG_MAX (effCount s) with hgt | hle
  · rw [tokLoop_truncated hgt]
    intro h
    simp only at h
    rcases List.take_eq_nil_iff.mp h with h0 | h0
    · simp [SHELL_ARG_MAX] at h0
    · exact specTokens_ne_nil s h0
  · rw [tokLoop_untruncated hle]
    intro h
    simp only at h
    have hp := effCount_pos hne
    rw [effCount, h] at hp
    simp at hp

theorem countCommands_eq_takeWhile : ∀ es : List CEntry,
    countCommands es = (es.takeWhile (fun e => e.name.isSome)).length := by
  intro es
  induction es with
  | nil => rfl
  | cons e es ih =>
    rcases hn : e.name with _ | nm
    · simp [countCommands, List.takeWhile_cons, hn]
    · simp [countCommands, List.takeWhile_cons, hn, ih]

theorem take_length_takeWhile (p : CEntry → Bool) : ∀ l : List CEntry,
    List.take (l.takeWhile p).length l = l.takeWhile p := by
  intro l
  induction l with
  | nil => rfl
  | cons e es ih =>
    by_cases hp : p e
    · simp [List.takeWhile_cons, hp, ih]
    · simp [List.takeWhile_cons, hp]


/-! ## Claim theorems -/

/-- Claim C10: for every command table whose last entry has a null name
pointer (sentinel-terminated), the single-argument `Shell` constructor
sets `cmd_count` to exactly the number of entries strictly before the
first null-named entry — the length of the longest prefix of entries
with non-null names — so lookup over `commands[0..cmd_count)` considers
precisely the commands preceding the sentinel and never the sentinel
itself. -/
theorem C10_sentinel_count (es : List CEntry) (sl : CEntry)
    (hlast : es.getLast? = some sl) (hnull : sl.name = none) :
    countCommands es = (es.takeWhile (fun e => e.name.isSome)).length ∧
    List.take (countCommands es) es = es.takeWhile (fun e => e.name.isSome) ∧
    ∀ e ∈ List.take (countCommands es) es, e.name.isSome := by
  have htw : List.take (countCommands es) es = es.takeWhile (fun e => e.name.isSome) := by
    rw [countCommands_eq_takeWhile es]
    exact take_length_takeWhile (fun e => e.name.isSome) es
  refine ⟨countCommands_eq_takeWhile es, htw, ?_⟩
  intro e he
  rw [htw] at he
  have hp := List.mem_takeWhile_imp he
  simpa using hp

/-- Witness for C10 at a concrete sentinel-terminated table. -/
theorem C10_sentinel_count_witness :
    ([⟨some [97], 1⟩, ⟨some [98], 2⟩, ⟨none, 0⟩] : List CEntry).getLast? = some ⟨none, 0⟩ ∧
    (countCommands [⟨some [97], 1⟩, ⟨some [98], 2⟩, ⟨none, 0⟩] =
       (([⟨some [97], 1⟩, ⟨some [98], 2⟩, ⟨none, 0⟩] : List CEntry).takeWhile
         (fun e => e.name.isSome)).length ∧
     List.take (countCommands [⟨some [97], 1⟩, ⟨some [98], 2⟩, ⟨none, 0⟩])
         ([⟨some [97], 1⟩, ⟨some [98], 2⟩, ⟨none, 0⟩] : List CEntry) =
       ([⟨some [97], 1⟩, ⟨some [98], 2⟩, ⟨none, 0⟩] : List CEntry).takeWhile
         (fun e => e.name.isSome) ∧
     ∀ e ∈ List.take (countCommands [⟨some [97], 1⟩, ⟨some [98], 2⟩, ⟨none, 0⟩])
         ([⟨some [97], 1⟩, ⟨some [98], 2⟩, ⟨none, 0⟩] : List CEntry), e.name.isSome) :=
  ⟨by decide, C10_sentinel_count _ ⟨none, 0⟩ (by decide) rfl⟩

/-- Claim C7 (amended): calling `begin()` is a silent no-op — no task
spawned, transport reference unchanged — once the previously spawned
loop task has begun executing and set `f_begin`; the claim's further
assertion that this holds for every interleaving, including a second
`begin()` issued before the spawned task has begun executing, is false
(see the counterexample). -/
theorem C7_begin_noop (s : BeginSt) (h : s.fBegin = true) (st : Nat) :
    beginOp s st = s := by
  simp [beginOp, h]

/-- Witness for C7 at a concrete running state. -/
theorem C7_begin_noop_witness :
    (⟨true, some 1, 1⟩ : BeginSt).fBegin = true ∧
    beginOp ⟨true, some 1, 1⟩ 2 = ⟨true, some 1, 1⟩ :=
  ⟨rfl, C7_begin_noop ⟨true, some 1, 1⟩ rfl 2⟩

/-- Counterexample to claim C7 as stated: in the interleaving where the
second `begin()` runs before the task spawned by the first has executed
`main` (so `f_begin` still reads 0, lines 45-48 of src/ToyShell.cpp), a
second loop task is created and the recorded transport reference is
overwritten. -/
theorem C7_counterexample :
    (beginOp ⟨false, none, 0⟩ 1).tasks = 1 ∧
    (beginOp ⟨false, none, 0⟩ 1).stream = some 1 ∧
    (beginOp (beginOp ⟨false, none, 0⟩ 1) 2).tasks = 2 ∧
    (beginOp (beginOp ⟨false, none, 0⟩ 1) 2).stream = some 2 := by
  decide

/-- Claim C2 (amended): calling `end()` while the lifecycle state is
Idle returns immediately (the busy-wait sees `f_begin = 0` at its first
check), but it is not effect-free: it leaves `f_end` set, so a
subsequent `begin()` spawns a loop task that observes the leftover stop
request at its first loop check and terminates immediately — zero loop
iterations run — clearing the flags back to Idle. -/
theorem C2_end_idle (s : LSys) (hb : s.fBegin = false)
    (hc : s.caller = CallerPc.setFlag) (he : s.fEnd = false)
    (hl : s.loop = LoopPc.idle) :
    (callerStep s).fEnd = true ∧
    (callerStep (callerStep s)).caller = CallerPc.returned ∧
    (loopStep (loopStep (beginL (callerStep (callerStep s))))).loop = LoopPc.exited ∧
    (loopStep (loopStep (beginL (callerStep (callerStep s))))).iters = s.iters ∧
    (loopStep (loopStep (beginL (callerStep (callerStep s))))).fBegin = false ∧
    (loopStep (loopStep (beginL (callerStep (callerStep s))))).fEnd = false := by
  obtain ⟨fb, fe, lp, cal, it⟩ := s
  simp only at hb hc he hl
  subst hb hc he hl
  simp [callerStep, loopStep, beginL]

/-- Witness for C2 at a concrete Idle state. -/
theorem C2_end_idle_witness :
    (⟨false, false, LoopPc.idle, CallerPc.setFlag, 7⟩ : LSys).fBegin = false ∧
    ((callerStep ⟨false, false, LoopPc.idle, CallerPc.setFlag, 7⟩).fEnd = true ∧
     (callerStep (callerStep ⟨false, false, LoopPc.idle, CallerPc.setFlag, 7⟩)).caller =
       CallerPc.returned ∧
     (loopStep (loopStep (beginL (callerStep (callerStep
         ⟨false, false, LoopPc.idle, CallerPc.setFlag, 7⟩))))).loop = LoopPc.exited ∧
     (loopStep (loopStep (beginL (callerStep (callerStep
         ⟨false, false, LoopPc.idle, CallerPc.setFlag, 7⟩))))).iters =
       (⟨false, false, LoopPc.idle, CallerPc.setFlag, 7⟩ : LSys).iters ∧
     (loopStep (loopStep (beginL (callerStep (callerStep
         ⟨false, false, LoopPc.idle, CallerPc.setFlag, 7⟩))))).fBegin = false ∧
     (loopStep (loopStep (beginL (callerStep (callerStep
         ⟨false, false, LoopPc.idle, CallerPc.setFlag, 7⟩))))).fEnd = false) :=
  ⟨rfl, C2_end_idle ⟨false, false, LoopPc.idle, CallerPc.setFlag, 7⟩ rfl rfl rfl rfl⟩

/-- Counterexample to claim C2 as stated: `end()` on an Idle shell does
not leave the lifecycle state unchanged — it sets `f_end` (line 53 runs
unconditionally) — and the loop started by a subsequent `begin()` is
terminated immediately by the leftover stop request: it reaches `exited`
having run zero iterations (the ghost iteration counter stays at 3). -/
theorem C2_counterexample :
    (callerStep ⟨false, false, LoopPc.idle, CallerPc.setFlag, 3⟩).fEnd = true ∧
    ¬ (callerStep ⟨false, false, LoopPc.idle, CallerPc.setFlag, 3⟩).fEnd =
        (⟨false, false, LoopPc.idle, CallerPc.setFlag, 3⟩ : LSys).fEnd ∧
    (callerStep (callerStep ⟨false, false, LoopPc.idle, CallerPc.setFlag, 3⟩)).caller =
      CallerPc.returned ∧
    (loopStep (loopStep (beginL (callerStep (callerStep
        ⟨false, false, LoopPc.idle, CallerPc.setFlag, 3⟩))))).loop = LoopPc.exited ∧
    (loopStep (loopStep (beginL (callerStep (callerStep
        ⟨false, false, LoopPc.idle, CallerPc.setFlag, 3⟩))))).iters = 3 := by
  decide

/-- Claim C8 (amended): when `end()` is called while the loop task is
Running (it has set `f_begin` and sits at the loop condition), then
under any schedule that keeps running both threads — the loop task makes
progress because the transport read respects its timeout and no handler
blocks forever — `end()` returns; and whenever it has returned, the loop
task has already observed the stop request, finished its current
iteration, cleared both flags back to Idle, and passed its last shared
access (only its self-delete remains).  The claim's further assertion
that the same holds for a call made while Starting is false (see the
counterexample). -/
theorem C8_end_synchronous (sched : Nat → Bool) (s0 : LSys)
    (hloop : s0.loop = LoopPc.looping) (hbeg : s0.fBegin = true)
    (hend : s0.fEnd = false) (hcaller : s0.caller = CallerPc.setFlag)
    (hfl : ∀ n, ∃ m, n ≤ m ∧ sched m = true)
    (hfc : ∀ n, ∃ m, n ≤ m ∧ sched m = false) :
    (∃ n, (run sched s0 n).caller = CallerPc.returned) ∧
    (∀ n, (run sched s0 n).caller = CallerPc.returned →
      (run sched s0 n).loop = LoopPc.exited ∧ (run sched s0 n).fBegin = false ∧
      (run sched s0 n).fEnd = false) := by
  have hinv0 : C8Inv s0 := Or.inl ⟨hcaller, hloop, hbeg, hend⟩
  have hinv : ∀ n, C8Inv (run sched s0 n) := c8inv_run sched s0 hinv0
  constructor
  · obtain ⟨m1, hm1le, hm1⟩ := hfc 0
    have h2p : 2 ≤ c8phase (run sched s0 (m1 + 1)) := by
      have hstep : run sched s0 (m1 + 1) = sysStep (sched m1) (run sched s0 m1) := rfl
      rcases c8phase_cases (hinv m1) with hp | hp | hp | hp
      · rw [hstep, hm1, c8_caller_at1 (hinv m1) hp]
      · rw [hstep]
        have hmono := c8phase_step (sched m1) (hinv m1)
        omega
      · rw [hstep]
        have hmono := c8phase_step (sched m1) (hinv m1)
        omega
      · rw [hstep]
        have hmono := c8phase_step (sched m1) (hinv m1)
        omega
    obtain ⟨m2, hm2le, hm2⟩ := hfl (m1 + 1)
    have h3p : 3 ≤ c8phase (run sched s0 (m2 + 1)) := by
      have hmono2 := c8phase_mono sched s0 hinv0 hm2le
      have hstep : run sched s0 (m2 + 1) = sysStep (sched m2) (run sched s0 m2) := rfl
      rcases c8phase_cases (hinv m2) with hp | hp | hp | hp
      · omega
      · rw [hstep, hm2, c8_loop_at2 (hinv m2) hp]
      · rw [hstep]
        have hmono := c8phase_step (sched m2) (hinv m2)
        omega
      · rw [hstep]
        have hmono := c8phase_step (sched m2) (hinv m2)
        omega
    obtain ⟨m3, hm3le, hm3⟩ := hfc (m2 + 1)
    have h4p : 4 ≤ c8phase (run sched s0 (m3 + 1)) := by
      have hmono3 := c8phase_mono sched s0 hinv0 hm3le
      have hstep : run sched s0 (m3 + 1) = sysStep (sched m3) (run sched s0 m3) := rfl
      rcases c8phase_cases (hinv m3) with hp | hp | hp | hp
      · omega
      · omega
      · rw [hstep, hm3, c8_caller_at3 (hinv m3) hp]
      · rw [hstep]
        have hmono := c8phase_step (sched m3) (hinv m3)
        omega
    refine ⟨m3 + 1, ?_⟩
    have h44 : c8phase (run sched s0 (m3 + 1)) = 4 := by
      rcases c8phase_cases (hinv (m3 + 1)) with hp | hp | hp | hp <;> omega
    exact c8phase_eq4 (hinv (m3 + 1)) h44
  · intro n hret
    rcases hinv n with ⟨h1, h2, h3, h4⟩ | ⟨h1, h2, h3, h4⟩ | ⟨h1, h2, h3, h4⟩ | ⟨h1, h2, h3, h4⟩
    · rw [hret] at h1
      simp at h1
    · rw [hret] at h1
      simp at h1
    · rw [hret] at h1
      simp at h1
    · exact ⟨h2, h3, h4⟩

/-- Witness for C8: a concrete Running state under the strictly
alternating (hence fair to both threads) schedule. -/
theorem C8_end_synchronous_witness :
    (⟨true, false, LoopPc.looping, CallerPc.setFlag, 5⟩ : LSys).loop = LoopPc.looping ∧
    ((∃ n, (run (fun k => decide (k % 2 = 0))
        ⟨true, false, LoopPc.looping, CallerPc.setFlag, 5⟩ n).caller = CallerPc.returned) ∧
     (∀ n, (run (fun k => decide (k % 2 = 0))
          ⟨true, false, LoopPc.looping, CallerPc.setFlag, 5⟩ n).caller = CallerPc.returned →
        (run (fun k => decide (k % 2 = 0))
          ⟨true, false, LoopPc.looping, CallerPc.setFlag, 5⟩ n).loop = LoopPc.exited ∧
        (run (fun k => decide (k % 2 = 0))
          ⟨true, false, LoopPc.looping, CallerPc.setFlag, 5⟩ n).fBegin = false ∧
        (run (fun k => decide (k % 2 = 0))
          ⟨true, false, LoopPc.looping, CallerPc.setFlag, 5⟩ n).fEnd = false)) :=
  ⟨rfl,
   C8_end_synchronous (fun k => decide (k % 2 = 0))
     ⟨true, false, LoopPc.looping, CallerPc.setFlag, 5⟩ rfl rfl rfl rfl
     (fun n => ⟨2 * n, by omega, by
        have h2 : (2 * n) % 2 = 0 := by omega
        simp [h2]⟩)
     (fun n => ⟨2 * n + 1, by omega, by
        have h2 : (2 * n + 1) % 2 = 1 := by omega
        simp [h2]⟩)⟩

/-- Counterexample to claim C8 as stated: `end()` called while the loop
is Starting — the task was spawned by `begin()` (line 48) but has not
yet executed line 70, so `f_begin` still reads 0 — returns after a
single check of the busy-wait condition, while the loop task has not
terminated (it has not even started).  The schedule runs the caller for
two steps before the spawned task gets the CPU, a legal interleaving. -/
theorem C8_counterexample :
    (run (fun n => decide (2 ≤ n))
       ⟨false, false, LoopPc.spawned, CallerPc.setFlag, 0⟩ 2).caller = CallerPc.returned ∧
    (run (fun n => decide (2 ≤ n))
       ⟨false, false, LoopPc.spawned, CallerPc.setFlag, 0⟩ 2).loop = LoopPc.spawned ∧
    ¬ LoopPc.spawned = LoopPc.exited := by
  decide


/-- Claim C1 (code bug): at the failing input — empty buffer, the read
returns `"\nfoo\n"` — the completed empty line takes the `argc == 0`
`continue` (src/ToyShell.cpp line 122), which skips the move-to-front
block (lines 131-138), so the bytes `"foo\n"` already read after the
newline are abandoned (the write cursor stays at offset 0 and the next
read overwrites them) instead of becoming the start of the next line's
buffer; no prompt is reprinted either.  The spec requires them to be
preserved. -/
theorem C1_empty_line_loses_leftover :
    iterate [] [] [10, 102, 111, 111, 10] = ([], [Out.echo []]) ∧
    ¬ (iterate [] [] [10, 102, 111, 111, 10]).1 = [102, 111, 111, 10] := by
  decide

/-- Claim C4 (amended): for every NUL-free line with at most
`SHELL_ARG_MAX` whitespace-separated tokens that does not end in a space
byte, tokenizing and re-joining the tokens with single spaces reproduces
the line exactly, with no truncation; the original claim's quantification
over all such lines is false for lines ending in a space, whose final
empty token is dropped (see the counterexample). -/
theorem C4_round_trip (line : List Nat) (h0 : (0 : Nat) ∉ line)
    (hcount : (specTokens line).length ≤ SHELL_ARG_MAX)
    (htrail : ¬ line.getLast? = some 32) :
    joinSp (tokLoop 0 line).1 = line ∧ (tokLoop 0 line).2 = false := by
  have hle : effCount line ≤ SHELL_ARG_MAX :=
    Nat.le_trans (effCount_le_specTokens_length line) hcount
  rw [tokLoop_untruncated hle]
  exact ⟨joinSp_effTokens htrail, rfl⟩

/-- Witness for C4 at the spec's own example line `"echo a  b"`
(tokens `["echo", "a", "", "b"]`, `argc = 4`). -/
theorem C4_round_trip_witness :
    (0 : Nat) ∉ ([101, 99, 104, 111, 32, 97, 32, 32, 98] : List Nat) ∧
    (specTokens [101, 99, 104, 111, 32, 97, 32, 32, 98]).length ≤ SHELL_ARG_MAX ∧
    (joinSp (tokLoop 0 [101, 99, 104, 111, 32, 97, 32, 32, 98]).1 =
       [101, 99, 104, 111, 32, 97, 32, 32, 98] ∧
     (tokLoop 0 [101, 99, 104, 111, 32, 97, 32, 32, 98]).2 = false) :=
  ⟨by decide, by decide,
   C4_round_trip [101, 99, 104, 111, 32, 97, 32, 32, 98] (by decide) (by decide) (by decide)⟩

/-- Counterexample to claim C4 as stated: the line `" "` (one space) is
shorter than the buffer capacity and has two whitespace-separated tokens
(both empty), yet the splitting loop yields the single token `""` and
re-joining gives `""`, not `" "` — the trailing empty token is lost. -/
theorem C4_counterexample :
    ([32] : List Nat).length < SHELL_LINE_MAX ∧
    (0 : Nat) ∉ ([32] : List Nat) ∧
    (specTokens [32]).length ≤ SHELL_ARG_MAX ∧
    ¬ joinSp (tokLoop 0 [32]).1 = [32] := by
  decide

/-- Claim C5: when accumulated input fills the buffer to exactly its
capacity (`SHELL_LINE_MAX` = 2048 bytes) with no newline among the newly
read bytes, the iteration prints the overflow diagnostic and a fresh
prompt, discards the entire buffer contents, and continues with an empty
buffer — never a silent truncation, never fatal. -/
theorem C5_overflow_exact (t : List Command) (buf chunk : List Nat)
    (hnl : memchr 10 chunk = none)
    (hfull : buf.length + chunk.length = SHELL_LINE_MAX) :
    iterate t buf chunk = ([], [Out.tooLong, Out.prompt]) := by
  rw [iterate_no_newline t buf chunk hnl, if_pos]
  rw [List.length_append]
  omega

/-- Witness for C5: a 2047-byte buffer plus a 1-byte newline-free read. -/
theorem C5_overflow_exact_witness :
    memchr 10 [97] = none ∧
    (List.replicate 2047 97).length + ([97] : List Nat).length = SHELL_LINE_MAX ∧
    iterate [] (List.replicate 2047 97) [97] = ([], [Out.tooLong, Out.prompt]) := by
  refine ⟨by decide, ?_, ?_⟩
  · rw [List.length_replicate]
    decide
  · exact C5_overflow_exact [] (List.replicate 2047 97) [97] (by decide)
      (by rw [List.length_replicate]; decide)

/-- Claim C9: the write cursor stays in bounds at every point of an
iteration: with the loop's entry invariant `buf.length < SHELL_LINE_MAX`
and a read bounded by the remaining capacity, the intermediate cursor
never passes the buffer's end (`buf.length + chunk.length ≤
SHELL_LINE_MAX`, so no read writes past the end), the invariant is
re-established for the next iteration, and the buffer changes only by
appending the read bytes, by a reset to empty, or by keeping exactly the
bytes after the consumed newline. -/
theorem C9_buffer_bounds (t : List Command) (buf chunk : List Nat)
    (hb : buf.length < SHELL_LINE_MAX)
    (hc : chunk.length ≤ SHELL_LINE_MAX - buf.length) :
    buf.length + chunk.length ≤ SHELL_LINE_MAX ∧
    (iterate t buf chunk).1.length < SHELL_LINE_MAX ∧
    ((iterate t buf chunk).1 = buf ++ chunk ∨ (iterate t buf chunk).1 = [] ∨
     ∃ e, memchr 10 chunk = some e ∧ (iterate t buf chunk).1 = List.drop (e + 1) chunk) := by
  have htot : buf.length + chunk.length ≤ SHELL_LINE_MAX := by omega
  refine ⟨htot, ?_⟩
  rcases hm : memchr 10 chunk with _ | e
  · rw [iterate_no_newline t buf chunk hm]
    by_cases hov : SHELL_LINE_MAX ≤ (buf ++ chunk).length
    · rw [if_pos hov]
      exact ⟨by simp [SHELL_LINE_MAX], Or.inr (Or.inl rfl)⟩
    · rw [if_neg hov]
      rw [List.length_append] at hov
      exact ⟨by simp only [List.length_append]; omega, Or.inl rfl⟩
  · rw [iterate_newline t buf chunk e hm]
    have hchne : chunk ≠ [] := memchr_ne_nil hm
    have hchpos : 1 ≤ chunk.length := by
      cases chunk with
      | nil => exact absurd rfl hchne
      | cons a l => simp
    by_cases hemp : (tokLoop 0 (buf ++ List.take e chunk)).1.length = 0
    · rw [if_pos hemp]
      have hline : buf ++ List.take e chunk = [] := by
        by_contra hlne
        exact tokLoop_result_ne_nil hlne (List.length_eq_zero.mp hemp)
      have hbuf : buf = [] := (List.append_eq_nil.mp hline).1
      exact ⟨by rw [hbuf]; simp [SHELL_LINE_MAX], Or.inr (Or.inl hbuf)⟩
    · rw [if_neg hemp]
      refine ⟨?_, Or.inr (Or.inr ⟨e, rfl, rfl⟩)⟩
      simp only [List.length_drop]
      omega

/-- Witness for C9 at a buffer holding one byte and a read ending mid
second line. -/
theorem C9_buffer_bounds_witness :
    ([97] : List Nat).length < SHELL_LINE_MAX ∧
    (([97] : List Nat).length + ([98, 10, 99] : List Nat).length ≤ SHELL_LINE_MAX ∧
     (iterate [] [97] [98, 10, 99]).1.length < SHELL_LINE_MAX ∧
     ((iterate [] [97] [98, 10, 99]).1 = [97] ++ [98, 10, 99] ∨
      (iterate [] [97] [98, 10, 99]).1 = [] ∨
      ∃ e, memchr 10 [98, 10, 99] = some e ∧
        (iterate [] [97] [98, 10, 99]).1 = List.drop (e + 1) [98, 10, 99])) :=
  ⟨by decide, C9_buffer_bounds [] [97] [98, 10, 99] (by decide) (by decide)⟩

/-- Claim C6 (amended): for every NUL-free, newline-free completed line
whose effective token count exceeds `SHELL_ARG_MAX` (more than 32
whitespace-separated tokens, not counting a lone trailing empty token),
the splitting loop accepts exactly the first 32 tokens, reports
truncation, and the iteration emits exactly one `"Too many arguments"`
diagnostic naming index 31, does not tokenize the remainder, and still
dispatches with `argc = 32` on the accepted tokens; the original claim's
quantification over all lines with more than 32 whitespace-separated
tokens is false for a line whose 33rd token is a trailing empty one,
which is truncated silently (see the counterexample). -/
theorem C6_truncation (t : List Command) (line : List Nat)
    (h0 : (0 : Nat) ∉ line) (h10 : (10 : Nat) ∉ line)
    (hmany : SHELL_ARG_MAX < effCount line) :
    tokLoop 0 line = ((specTokens line).take SHELL_ARG_MAX, true) ∧
    ((specTokens line).take SHELL_ARG_MAX).length = SHELL_ARG_MAX ∧
    iterate t [] (line ++ [10]) =
      ([], Out.echo line :: Out.tooManyArgs (SHELL_ARG_MAX - 1) ::
        (dispatchModel t ((specTokens line).take SHELL_ARG_MAX) ++ [Out.prompt])) := by
  have htk := tokLoop_truncated hmany
  have hlen : ((specTokens line).take SHELL_ARG_MAX).length = SHELL_ARG_MAX := by
    rw [List.length_take]
    have hle := effCount_le_specTokens_length line
    omega
  refine ⟨htk, hlen, ?_⟩
  have hm : memchr 10 (line ++ [10]) = some line.length := memchr_concat_self h10
  rw [iterate_newline t [] (line ++ [10]) line.length hm]
  have hline : ([] : List Nat) ++ List.take line.length (line ++ [10]) = line := by
    rw [List.nil_append, List.take_left]
  rw [hline, htk]
  have hdrop : List.drop (line.length + 1) (line ++ [10]) = [] := by
    apply List.drop_eq_nil_of_le
    simp
  have hne0 : ¬ ((specTokens line).take SHELL_ARG_MAX, true).1.length = 0 := by
    show ¬ ((specTokens line).take SHELL_ARG_MAX).length = 0
    rw [hlen]
    decide
  rw [if_neg hne0, hdrop]
  simp

/-- Witness for C6 at a line of 33 one-byte tokens. -/
theorem C6_truncation_witness :
    SHELL_ARG_MAX < effCount (joinSp (List.replicate 33 [97])) ∧
    (tokLoop 0 (joinSp (List.replicate 33 [97])) =
       ((specTokens (joinSp (List.replicate 33 [97]))).take SHELL_ARG_MAX, true) ∧
     ((specTokens (joinSp (List.replicate 33 [97]))).take SHELL_ARG_MAX).length =
       SHELL_ARG_MAX ∧
     iterate [] [] (joinSp (List.replicate 33 [97]) ++ [10]) =
       ([], Out.echo (joinSp (List.replicate 33 [97])) ::
          Out.tooManyArgs (SHELL_ARG_MAX - 1) ::
          (dispatchModel []
             ((specTokens (joinSp (List.replicate 33 [97]))).take SHELL_ARG_MAX) ++
           [Out.prompt]))) :=
  ⟨by decide, C6_truncation [] (joinSp (List.replicate 33 [97]))
    (by decide) (by decide) (by decide)⟩

/-- Counterexample to claim C6 as stated: a line of 32 one-byte tokens
followed by a trailing space contains 33 whitespace-separated tokens
(the last one empty), which is more than `SHELL_ARG_MAX`, yet the
splitting loop accepts 32 tokens without ever reaching the truncation
branch: no `"Too many arguments"` diagnostic is emitted at all, where
the claim requires exactly one. -/
theorem C6_counterexample :
    SHELL_ARG_MAX < (specTokens (joinSp (List.replicate 32 [97]) ++ [32])).length ∧
    (tokLoop 0 (joinSp (List.replicate 32 [97]) ++ [32])).2 = false ∧
    Out.tooManyArgs (SHELL_ARG_MAX - 1) ∉
      (iterate [] [] ((joinSp (List.replicate 32 [97]) ++ [32]) ++ [10])).2 := by
  decide

/-- Claim C3: for every command table in strict ascending byte-wise
lexicographic order by name and every nonempty token vector: if the
first token equals the name of a command in the table, the iteration
dispatches to exactly that command's handler with `argc` the token
count, `argv` the tokens and the io channel, using at most
`log2 C + 1` comparator calls; if no command's name matches, the
`"shell: No such command"` diagnostic is written, the prompt is
reprinted, and the iteration completes normally with the leftover bytes
as the next buffer (never fatal). -/
theorem C3_dispatch (t : List Command)
    (hsorted : List.Pairwise (fun a b => strcmp a.name b.name = Ordering.lt) t)
    (buf chunk : List Nat) (e : Nat) (hnl : memchr 10 chunk = some e)
    (argv : List (List Nat)) (tr : Bool)
    (htok : tokLoop 0 (buf ++ List.take e chunk) = (argv, tr))
    (hne : argv ≠ []) :
    (∀ c ∈ t, c.name = argv.headI →
      iterate t buf chunk =
        (List.drop (e + 1) chunk,
         (Out.echo (buf ++ List.take e chunk) ::
            (if tr then [Out.tooManyArgs (SHELL_ARG_MAX - 1)] else [])) ++
           [Out.invoke c.entry argv.length argv] ++ [Out.prompt]) ∧
      (bsearch argv.headI t).2 ≤ Nat.log2 t.length + 1) ∧
    ((∀ c ∈ t, ¬ c.name = argv.headI) →
      iterate t buf chunk =
        (List.drop (e + 1) chunk,
         (Out.echo (buf ++ List.take e chunk) ::
            (if tr then [Out.tooManyArgs (SHELL_ARG_MAX - 1)] else [])) ++
           [Out.noSuchCommand argv.headI] ++ [Out.prompt])) := by
  obtain ⟨key, rest, rfl⟩ := List.exists_cons_of_ne_nil hne
  have hhead : (key :: rest).headI = key := rfl
  have hbase := iterate_newline t buf chunk e hnl
  rw [htok] at hbase
  rw [if_neg (by simp)] at hbase
  constructor
  · intro c hc hcname
    have hfound : (bsearch key t).1 = some c :=
      bsearch_found hsorted hc (by rw [hcname, hhead])
    constructor
    · rw [hbase]
      simp [dispatchModel, hfound, hhead]
    · rw [hhead]
      exact bsearch_count key t
  · intro hnone
    have hmiss : (bsearch key t).1 = none := by
      apply bsearch_none
      intro c hc
      have := hnone c hc
      rw [hhead] at this
      exact this
    rw [hbase]
    simp [dispatchModel, hmiss, hhead]

/-- Witness for C3 at the spec's Scenario 1 table (`echo`, `help`) and
input line `"help\n"`: the `help` handler (entry 2) is invoked with
`argc = 1`. -/
theorem C3_dispatch_witness :
    List.Pairwise (fun a b => strcmp a.name b.name = Ordering.lt)
      ([⟨[101, 99, 104, 111], 1⟩, ⟨[104, 101, 108, 112], 2⟩] : List Command) ∧
    (iterate [⟨[101, 99, 104, 111], 1⟩, ⟨[104, 101, 108, 112], 2⟩]
        [] [104, 101, 108, 112, 10] =
      (List.drop (4 + 1) [104, 101, 108, 112, 10],
       (Out.echo ([] ++ List.take 4 [104, 101, 108, 112, 10]) ::
          (if false then [Out.tooManyArgs (SHELL_ARG_MAX - 1)] else [])) ++
         [Out.invoke 2 ([[104, 101, 108, 112]] : List (List Nat)).length
            [[104, 101, 108, 112]]] ++ [Out.prompt]) ∧
     (bsearch ([[104, 101, 108, 112]] : List (List Nat)).headI
        [⟨[101, 99, 104, 111], 1⟩, ⟨[104, 101, 108, 112], 2⟩]).2 ≤
       Nat.log2 (List.length
         ([⟨[101, 99, 104, 111], 1⟩, ⟨[104, 101, 108, 112], 2⟩] : List Command)) + 1) :=
  ⟨by decide,
   (C3_dispatch [⟨[101, 99, 104, 111], 1⟩, ⟨[104, 101, 108, 112], 2⟩] (by decide)
      [] [104, 101, 108, 112, 10] 4 (by decide) [[104, 101, 108, 112]] false
      (by decide) (by decide)).1
     ⟨[104, 101, 108, 112], 2⟩ (by decide) (by decide)⟩

end ToyShell
